import Mathlib

/-!
# Verification of the OperaPowerTools utility library

Shallow embedding of the functions of `OperaPowerTools/opt.py` and proofs of
the specification's claims about them.  Pure functions become Lean functions;
Python exceptions become `Except`; the random generators and the third-party
collaborators (rapidfuzz scorer, phonetic coder, word-number parser,
summarizers) are either universally quantified function parameters constrained
by their documented contracts or, where a claim pins their behaviour, models
built from the specification's description.
-/

namespace OPT

/-! ## Sorting (`bubble_sort`, `selection_sort`, `insertion_sort`) -/

/-- One bubble pass performing at most `m` adjacent comparisons, mirroring the
inner loop `for j in range(n - i - 1)` of `bubble_sort`: compare `arr[j]` with
`arr[j+1]`, swap when strictly greater.  Returns the updated list together with
the `swapped` flag. -/
def bubblePass : Nat → List Int → List Int × Bool
  | 0, l => (l, false)
  | _ + 1, [] => ([], false)
  | _ + 1, [a] => ([a], false)
  | m + 1, a :: b :: l =>
    if a > b then
      ((bubblePass m (a :: l)).1.cons b, true)
    else
      ((bubblePass m (b :: l)).1.cons a, (bubblePass m (b :: l)).2)

/-- The outer loop of `bubble_sort`: iteration with fuel `m+1` performs a pass
of `m+1` comparisons (Python's pass at `i` does `n - i - 1` comparisons), and
stops early when the pass reports no swap. -/
def bubbleLoop : Nat → List Int → List Int
  | 0, l => l
  | m + 1, l =>
    if (bubblePass (m + 1) l).2 then bubbleLoop m (bubblePass (m + 1) l).1
    else (bubblePass (m + 1) l).1

/-- `bubble_sort` from `opt.py`: passes of sizes `n-1, n-2, ...` with early
exit once a pass swaps nothing (the final size-0 pass of the Python loop is a
no-op and is absorbed into the fuel `n - 1`). -/
def bubble_sort (arr : List Int) : List Int :=
  bubbleLoop (arr.length - 1) arr

/-- The inner scan of `selection_sort`: starting from the running minimum `a`
(the element at the current outer index), scan the rest of the list updating
the running minimum on strict `<` exactly as `if arr[j] < arr[min_index]`.
Returns the minimum value together with its position in the scanned list
(`none` when the initial element `a` was never beaten, i.e. `min_index == i`). -/
def findMin (a : Int) : List Int → Int × Option Nat
  | [] => (a, none)
  | b :: t =>
    if b < a then
      match findMin b t with
      | (m, none) => (m, some 0)
      | (m, some i) => (m, some (i + 1))
    else
      match findMin a t with
      | (m, none) => (m, none)
      | (m, some i) => (m, some (i + 1))

/-- The outer loop of `selection_sort`, one fuel unit per outer index `i`:
find the minimum of the unsorted suffix and swap it with the element at `i`
(`arr[i], arr[min_index] = arr[min_index], arr[i]`); a `none` position means
the self-swap `min_index == i`. -/
def selLoop : Nat → List Int → List Int
  | 0, l => l
  | _ + 1, [] => []
  | f + 1, a :: l =>
    match findMin a l with
    | (_, none) => a :: selLoop f l
    | (m, some i) => m :: selLoop f (l.set i a)

/-- `selection_sort` from `opt.py`: `n` outer iterations. -/
def selection_sort (arr : List Int) : List Int :=
  selLoop arr.length arr

/-- Insertion of `key` into the sorted prefix, the net effect of the shifting
loop `while j >= 0 and arr[j] > key` of `insertion_sort`: `key` ends up before
the first element strictly greater than it. -/
def insortInsert (key : Int) : List Int → List Int
  | [] => [key]
  | b :: t => if b > key then key :: b :: t else b :: insortInsert key t

/-- `insertion_sort` from `opt.py`: the first element is the initial sorted
prefix, each later element is inserted in turn. -/
def insertion_sort (arr : List Int) : List Int :=
  match arr with
  | [] => []
  | a :: rest => rest.foldl (fun acc key => insortInsert key acc) [a]

/-! ## Text sanitization (`sanitize_text`)

The denylist patterns of `sanitize_text` use only literal characters, the
word boundary `\b` and the whitespace class `\s+`, so regex matching is
embedded for exactly these three constructs, with `re.IGNORECASE` realised by
comparing lowered characters. -/

/-- A word character in the sense of the regex `\b` (Python `re`, ASCII view):
letters, digits and underscore. -/
def isWordChar (c : Char) : Bool := c.isAlphanum || c = '_'

/-- A whitespace character in the sense of the regex `\s`. -/
def isSpaceChar (c : Char) : Bool :=
  c = ' ' || c = '\t' || c = '\n' || c = '\r' || c = '\x0b' || c = '\x0c'

/-- One element of a denylist pattern: a literal character, the word boundary
`\b`, or the whitespace run `\s+`. -/
inductive RElem where
  | lit : Char → RElem
  | wb : RElem
  | wsPlus : RElem
deriving DecidableEq

/-- Whether the character before the current position is a word character
(`false` at the start of the text). -/
def isWordOpt : Option Char → Bool
  | none => false
  | some c => isWordChar c

/-- Whether the character at the current position is a word character
(`false` at the end of the text). -/
def headIsWord : List Char → Bool
  | [] => false
  | c :: _ => isWordChar c

/-- Match a pattern against a prefix of `s`, given the character `prev` just
before the current position; returns the consumed characters (the match
group).  Literals compare case-insensitively (`re.IGNORECASE`); `\s+` is
greedy, preferring the longer run first as `re` does. -/
def matchFrom : List RElem → Option Char → List Char → Option (List Char)
  | [], _, _ => some []
  | RElem.lit _ :: _, _, [] => none
  | RElem.lit c :: p1, _, d :: s1 =>
    if d.toLower = c.toLower then (matchFrom p1 (some d) s1).map (fun g => d :: g)
    else none
  | RElem.wb :: p1, prev, s =>
    if isWordOpt prev = headIsWord s then none else matchFrom p1 prev s
  | RElem.wsPlus :: _, _, [] => none
  | RElem.wsPlus :: p1, _, d :: s1 =>
    if isSpaceChar d then
      match matchFrom (RElem.wsPlus :: p1) (some d) s1 with
      | some g => some (d :: g)
      | none => (matchFrom p1 (some d) s1).map (fun g => d :: g)
    else none
termination_by p _ s => (s.length, p.length)

/-- Try each alternative of the combined pattern, in order, at the current
position. -/
def tryPats (pats : List (List RElem)) (prev : Option Char) (s : List Char) :
    Option (List Char) :=
  match pats with
  | [] => none
  | p :: ps =>
    match matchFrom p prev s with
    | some g => some g
    | none => tryPats ps prev s

/-- `re.search` over the alternation `pats`: scan positions left to right and
return the group of the first match. -/
def searchGroup (pats : List (List RElem)) : Option Char → List Char → Option (List Char)
  | prev, [] => tryPats pats prev []
  | prev, d :: t =>
    match tryPats pats prev (d :: t) with
    | some g => some g
    | none => searchGroup pats (some d) t

/-- The characters of a string as literal pattern elements; this is what
`re.escape` produces, a pattern matching the string itself. -/
def lits (s : String) : List RElem := s.data.map RElem.lit

/-- A `\b...\b`-delimited literal word pattern. -/
def wordPat (s : String) : List RElem := (RElem.wb :: lits s) ++ [RElem.wb]

/-- The fixed denylist `BLACKLISTED_KEYWORDS` of `sanitize_text`, pattern by
pattern in source order. -/
def BLACKLISTED_KEYWORDS : List (List RElem) :=
  [ wordPat "import"
  , wordPat "exec"
  , wordPat "eval"
  , RElem.wb :: lits "system("
  , RElem.wb :: lits "os."
  , RElem.wb :: lits "subprocess."
  , (RElem.wb :: lits "rm") ++ [RElem.wsPlus] ++ lits "-rf" ++ [RElem.wb]
  , wordPat "rmdir"
  , wordPat "del"
  , RElem.wb :: lits "open("
  , RElem.wb :: lits "write("
  , RElem.wb :: lits "read("
  , wordPat "chmod"
  , wordPat "chown" ]

/-- The alternation `BLACKLISTED_KEYWORDS + escaped user keywords`, in the
order the source joins them. -/
def combinedPats (more_keywords : List String) : List (List RElem) :=
  BLACKLISTED_KEYWORDS ++ more_keywords.map lits

/-- The diagnostic built by `sanitize_text` from the offending text and the
matched group. -/
def logMessage (text : String) (g : List Char) : String :=
  "Blocked potentially dangerous input: '" ++ text ++ "' matches keyword '"
    ++ String.mk g ++ "'"

/-- The matching core of `sanitize_text`, after the argument type check. -/
def sanitize_core (text : String) (more_keywords : List String) : String × String :=
  match searchGroup (combinedPats more_keywords) none text.data with
  | some g => ("", logMessage text g)
  | none => (text, "")

/-- A dynamically typed element of the `more_keywords` argument: a string or
something else. -/
inductive PyVal where
  | str : String → PyVal
  | nonStr : PyVal
deriving DecidableEq

/-- The dynamically typed `more_keywords` argument itself: a Python list or
something else. -/
inductive PyArg where
  | list : List PyVal → PyArg
  | nonList : PyArg
deriving DecidableEq

/-- Whether a dynamic value is a string (`isinstance(k, str)`). -/
def PyVal.isStr : PyVal → Bool
  | PyVal.str _ => true
  | PyVal.nonStr => false

/-- The string carried by a dynamic value (junk on a non-string, never read
behind the type check). -/
def PyVal.getStr : PyVal → String
  | PyVal.str s => s
  | PyVal.nonStr => ""

/-- `sanitize_text` from `opt.py`: the `isinstance` check on `more_keywords`
comes first and raises `TypeError` (the `Except.error` branch) before the text
is ever inspected; otherwise the matching core runs. -/
def sanitize_text (text : String) (more_keywords : PyArg) :
    Except String (String × String) :=
  match more_keywords with
  | PyArg.nonList => Except.error "more_keywords must be a list of strings"
  | PyArg.list vs =>
    if vs.all PyVal.isStr then
      Except.ok (sanitize_core text (vs.map PyVal.getStr))
    else Except.error "more_keywords must be a list of strings"

/-! ## Number normalization (`normalize_number`) -/

/-- Python `str.isdigit` on ASCII text: nonempty and all decimal digits. -/
def isDigits (s : List Char) : Bool := !s.isEmpty && s.all Char.isDigit

/-- The numeric value of a decimal digit character. -/
def digitVal (c : Char) : Nat := c.toNat - 48

/-- Python `int` on a digit string. -/
def parseDigits (s : List Char) : Nat := s.foldl (fun acc c => acc * 10 + digitVal c) 0

/-- Modelled from the spec: the number-word dictionary of the third-party
`w2n` library used by `normalize_number` (the library's code is not part of
this repository); the spec describes the call as plain word-to-number
conversion with examples such as forty-two giving 42. -/
def numberWordValue : String → Option Nat
  | "zero" => some 0
  | "one" => some 1
  | "two" => some 2
  | "three" => some 3
  | "four" => some 4
  | "five" => some 5
  | "six" => some 6
  | "seven" => some 7
  | "eight" => some 8
  | "nine" => some 9
  | "ten" => some 10
  | "eleven" => some 11
  | "twelve" => some 12
  | "thirteen" => some 13
  | "fourteen" => some 14
  | "fifteen" => some 15
  | "sixteen" => some 16
  | "seventeen" => some 17
  | "eighteen" => some 18
  | "nineteen" => some 19
  | "twenty" => some 20
  | "thirty" => some 30
  | "forty" => some 40
  | "fifty" => some 50
  | "sixty" => some 60
  | "seventy" => some 70
  | "eighty" => some 80
  | "ninety" => some 90
  | "hundred" => some 100
  | "thousand" => some 1000
  | "million" => some 1000000
  | "billion" => some 1000000000
  | _ => none

/-- Combining step for number words: units accumulate, hundred multiplies the
current group, the large scales close a group. -/
def w2nStep (acc : Nat × Nat) (n : Nat) : Nat × Nat :=
  if n = 100 then (acc.1, max acc.2 1 * 100)
  else if n = 1000 || n = 1000000 || n = 1000000000 then
    (acc.1 + max acc.2 1 * n, 0)
  else (acc.1, acc.2 + n)

/-- The value of a nonempty list of number-word values. -/
def wordsToNat (ns : List Nat) : Nat :=
  let r := ns.foldl w2nStep (0, 0)
  r.1 + r.2

/-- Split a character list into maximal whitespace-free words, the effect of
Python `str.split()`; the accumulator holds the current word reversed. -/
def splitWsAux (acc : List Char) : List Char → List (List Char)
  | [] => if acc.isEmpty then [] else [acc.reverse]
  | c :: t =>
    if c.isWhitespace then
      if acc.isEmpty then splitWsAux [] t
      else acc.reverse :: splitWsAux [] t
    else splitWsAux (c :: acc) t

/-- The words of a character list. -/
def splitWords (cs : List Char) : List (List Char) := splitWsAux [] cs

/-- Modelled from the spec: the third-party `w2n.word_to_num` used by
`normalize_number`.  Hyphens become spaces, recognised number words are kept
and combined, other words are ignored, and the call fails exactly when no
number word is present in the text. -/
def word_to_num (s : String) : Except String Nat :=
  let cs := (s.data.map fun c => if c = '-' then ' ' else c).map Char.toLower
  if isDigits cs then Except.ok (parseDigits cs)
  else
    let ns := (splitWords cs).filterMap fun w => numberWordValue (String.mk w)
    if ns.isEmpty then Except.error "No valid number words found in the input"
    else Except.ok (wordsToNat ns)

/-- English words of a number below one hundred. -/
def tensWord : Nat → String
  | 2 => "twenty"
  | 3 => "thirty"
  | 4 => "forty"
  | 5 => "fifty"
  | 6 => "sixty"
  | 7 => "seventy"
  | 8 => "eighty"
  | _ => "ninety"

/-- English words of a number below twenty. -/
def onesWord : Nat → String
  | 0 => "zero"
  | 1 => "one"
  | 2 => "two"
  | 3 => "three"
  | 4 => "four"
  | 5 => "five"
  | 6 => "six"
  | 7 => "seven"
  | 8 => "eight"
  | 9 => "nine"
  | 10 => "ten"
  | 11 => "eleven"
  | 12 => "twelve"
  | 13 => "thirteen"
  | 14 => "fourteen"
  | 15 => "fifteen"
  | 16 => "sixteen"
  | 17 => "seventeen"
  | 18 => "eighteen"
  | _ => "nineteen"

/-- English words of a number below one thousand, hyphenating tens-and-ones as
inflect does. -/
def smallWords (n : Nat) : String :=
  if n < 20 then onesWord n
  else if n < 100 then
    tensWord (n / 10) ++ (if n % 10 = 0 then "" else "-" ++ onesWord (n % 10))
  else
    onesWord (n / 100) ++ " hundred"
      ++ (if n % 100 = 0 then "" else " and " ++ smallWords (n % 100))
termination_by n
decreasing_by simp_wf; omega

/-- Modelled from the spec: the third-party `inflect` engine's
`number_to_words`, used by `normalize_number` to rewrite embedded digit runs
as number words (converting e.g. "3" within text to "three"); scales beyond
billions are not modelled. -/
def number_to_words (n : Nat) : String :=
  if n < 1000 then smallWords n
  else
    let b := n / 1000000000
    let m := n / 1000000 % 1000
    let t := n / 1000 % 1000
    let u := n % 1000
    String.intercalate ", "
      (((if b = 0 then [] else [smallWords (b % 1000) ++ " billion"])
          ++ (if m = 0 then [] else [smallWords m ++ " million"])
          ++ (if t = 0 then [] else [smallWords t ++ " thousand"]))
        ++ (if u = 0 then [] else [smallWords u]))

/-- The substitution `re.sub(r"\b\d+\b", number_to_words, input)` of
`normalize_number`: every maximal digit run delimited by word boundaries is
replaced by its words.  `prev` is the character before the current position. -/
def rewriteDigitRuns (prev : Option Char) (s : List Char) : List Char :=
  match s with
  | [] => []
  | c :: t =>
    if c.isDigit && !isWordOpt prev then
      let run := c :: t.takeWhile Char.isDigit
      let rest := t.dropWhile Char.isDigit
      if rest.isEmpty || !isWordChar (rest.headD ' ') then
        (number_to_words (parseDigits run)).data ++ rewriteDigitRuns (some c) rest
      else
        run ++ rewriteDigitRuns (some c) rest
    else
      c :: rewriteDigitRuns (some c) t
termination_by s.length
decreasing_by
  all_goals simp_wf
  all_goals
    have hd : ∀ u : List Char, (List.dropWhile Char.isDigit u).length ≤ u.length := by
      intro u
      induction u with
      | nil => simp [List.dropWhile]
      | cons a v ih =>
        simp only [List.dropWhile]
        by_cases h : Char.isDigit a
        · simp [h]; omega
        · simp [h]
  all_goals exact Nat.lt_succ_of_le (hd _)

/-- Python `str.strip()`: whitespace removed from both ends. -/
def strTrim (s : String) : String :=
  String.mk (((s.data.dropWhile Char.isWhitespace).reverse.dropWhile
    Char.isWhitespace).reverse)

/-- Python `str.lower()` (ASCII view). -/
def strLower (s : String) : String := String.mk (s.data.map Char.toLower)

/-- The argument of `normalize_number`: `int | str`. -/
inductive IntOrStr where
  | int : Int → IntOrStr
  | str : String → IntOrStr

/-- The `ValueError` of `normalize_number`, carrying its cause
(`raise ... from e`). -/
structure NormError where
  message : String
  cause : String
deriving DecidableEq

/-- `normalize_number` from `opt.py`: integers pass through; strings are
trimmed and lowered, parsed directly when purely digits, otherwise rewritten
(digit runs to words) and handed to the word-to-number conversion, whose
failure becomes the invalid-input error carrying the cause. -/
def normalize_number : IntOrStr → Except NormError Int
  | IntOrStr.int n => Except.ok n
  | IntOrStr.str s =>
    let t := strLower (strTrim s)
    if isDigits t.data then Except.ok (Int.ofNat (parseDigits t.data))
    else
      let u := String.mk (rewriteDigitRuns none t.data)
      match word_to_num u with
      | Except.ok n => Except.ok (Int.ofNat n)
      | Except.error e =>
        Except.error { message := "Invalid number input: " ++ u, cause := e }

/-! ## Random point in a box (`random_within_boundary_box`) -/

/-- Python `int()` on an exact numeric value: truncation toward zero. -/
def truncQ (q : ℚ) : Int := if 0 ≤ q then Int.floor q else -Int.floor (-q)

/-- The derived integer bounds `(x_min, x_max, y_min, y_max)` of the boundary
box after coordinate truncation, for the two centering modes. -/
def boxBounds (x y h w : ℚ) (centered : Bool) : Int × Int × Int × Int :=
  if centered then
    (truncQ (x - w / 2), truncQ (x + w / 2), truncQ (y - h / 2), truncQ (y + h / 2))
  else
    (truncQ x, truncQ (x + w), truncQ y, truncQ (y + h))

/-- `random_within_boundary_box` from `opt.py`, over exact rationals, with
`random.randint` abstracted as the function `randint` (constrained in the
theorems by its contract: a result between its bounds whenever they are
ordered). -/
def random_within_boundary_box (x y h w : ℚ) (centered : Bool)
    (randint : Int → Int → Int) : Except String (Int × Int) :=
  match boxBounds x y h w centered with
  | (xmin, xmax, ymin, ymax) =>
    if xmin > xmax || ymin > ymax then
      Except.error "Invalid boundary box. Ensure width and height are positive."
    else
      Except.ok (randint xmin xmax, randint ymin ymax)

/-! ## Directory enumeration (`enumerate_directory`) -/

/-- One `os.scandir` entry: its name, full path and kind. -/
structure FSEntry where
  name : String
  path : String
  isFile : Bool
  isDir : Bool

/-- An abstract filesystem: existence and directory tests, `scandir` listings
and which directories raise `PermissionError`. -/
structure FS where
  pathExists : String → Bool
  isDirectory : String → Bool
  children : String → List FSEntry
  permissionDenied : String → Bool

/-- One entry of the result tree: a file name or a nested single-key mapping
for a subdirectory. -/
inductive DirEntry where
  | file : String → DirEntry
  | sub : String → List DirEntry → DirEntry

/-- The result dictionary of `enumerate_directory`: always a single key,
either the error key with its messages or the path with its contents. -/
inductive DirListing where
  | error : List String → DirListing
  | listing : String → List DirEntry → DirListing

/-- `_scan_directory` from `opt.py`: files are appended by name; directories
are recursed into while `depth > 0` and appended only when the recursive scan
is non-empty; a directory raising `PermissionError` contributes nothing. -/
def scanDirectory (fs : FS) (depth : Nat) (dir : String) : List DirEntry :=
  if fs.permissionDenied dir then []
  else
    (fs.children dir).foldl
      (fun contents e =>
        if e.isFile then contents ++ [DirEntry.file e.name]
        else if e.isDir then
          match depth with
          | 0 => contents
          | d + 1 =>
            let subContents := scanDirectory fs d e.path
            if subContents.isEmpty then contents
            else contents ++ [DirEntry.sub e.name subContents]
        else contents)
      []
termination_by depth

/-- `enumerate_directory` from `opt.py`: a missing path or a non-directory
path yields the error-keyed result rather than an exception. -/
def enumerate_directory (fs : FS) (path : String) (levels : Nat) : DirListing :=
  if !fs.pathExists path then
    DirListing.error ["Directory does not exist: " ++ path]
  else if !fs.isDirectory path then
    DirListing.error ["Path is not a directory: " ++ path]
  else DirListing.listing path (scanDirectory fs levels path)

/-! ## Phonetic matching (`find_best_phonetic_match`) -/

/-- Modelled from the spec: the scan of rapidfuzz `process.extractOne` with a
score cutoff, which the spec describes as finding the best-scoring match with
cutoff 70, ties broken by order.  A candidate enters when its score reaches
the cutoff and replaces the incumbent only on a strictly greater score. -/
def extractOneGo (score : String → String → Nat) (cutoff : Nat) (q : String) :
    Option (String × Nat) → List String → Option (String × Nat)
  | best, [] => best
  | best, c :: cs =>
    let s := score q c
    let keep : Bool :=
      match best with
      | none => decide (cutoff ≤ s)
      | some b => decide (b.2 < s)
    extractOneGo score cutoff q (if keep then some (c, s) else best) cs

/-- `process.extractOne(query, choices, score_cutoff)`. -/
def extractOne (score : String → String → Nat) (cutoff : Nat) (q : String)
    (choices : List String) : Option (String × Nat) :=
  extractOneGo score cutoff q none choices

/-- The key order of the Python dict comprehension building `phonetic_map`:
first occurrence of each option, in order. -/
def firstDedup : List String → List String
  | [] => []
  | a :: l => a :: firstDedup (l.filter (fun x => x ≠ a))
termination_by l => l.length
decreasing_by
  simp_wf
  exact Nat.lt_succ_of_le (List.length_filter_le _ _)

/-- `find_best_phonetic_match` from `opt.py`, with the phonetic coder `phon`
(`get_phonetic_representation`) and the rapidfuzz scorer abstracted: build the
option-to-code map, extract the best code with cutoff 70, and return the first
option whose code equals the winning code. -/
def find_best_phonetic_match (phon : String → String)
    (score : String → String → Nat) (target : String) (options : List String) :
    Option String :=
  let target_phonetic := phon target
  let keys := firstDedup options
  match extractOne score 70 target_phonetic (keys.map phon) with
  | some bm => keys.find? (fun o => phon o = bm.1)
  | none => none

/-! ## Timed delay (`timed_delay`) -/

/-- The total delay `timed_delay` sleeps for, over exact rationals, with
`random.uniform` abstracted as `uniform`: the wait time is clamped to zero,
the two variant bounds are clamped to zero and sorted, and the drawn extra
delay is added. -/
def timed_delay_total (wait_time variant_time_x variant_time_y : ℚ)
    (uniform : ℚ → ℚ → ℚ) : ℚ :=
  let w := max 0 wait_time
  let a := min (max 0 variant_time_x) (max 0 variant_time_y)
  let b := max (max 0 variant_time_x) (max 0 variant_time_y)
  w + uniform a b

/-! ## Summarization (`get_main_idea`) -/

/-- The keys of the `summarizers` dictionary of `get_main_idea`, in source
order. -/
def summarizerNames : List String := ["luhn", "lex_rank", "lsa", "text_rank"]

/-- `get_main_idea` from `opt.py`, with the sumy summarization pipeline
abstracted as `summarize` (given the summarizer name, the passage and the
sentence count): an unrecognised summarizer name raises `ValueError`
(the `Except.error` branch), a recognised one proceeds to summarize. -/
def get_main_idea (summarize : String → String → Nat → String)
    (passage : String) (sentences : Nat) (summarizer : String) :
    Except String String :=
  if summarizerNames.contains summarizer then
    Except.ok (summarize summarizer passage sentences)
  else
    Except.error ("Invalid summarizer: " ++ summarizer
      ++ ". Choose from: luhn, lex_rank, lsa, text_rank")

/-! ## Lemmas: insertion sort -/

theorem insortInsert_perm (key : Int) (l : List Int) :
    List.Perm (insortInsert key l) (key :: l) := by
  induction l with
  | nil => simp [insortInsert]
  | cons b t ih =>
    simp only [insortInsert]
    by_cases h : b > key
    · simp [h]
    · simp only [if_neg h]
      exact (ih.cons b).trans (List.Perm.swap key b t)

theorem insortInsert_sorted (key : Int) (l : List Int)
    (h : l.Sorted (· ≤ ·)) : (insortInsert key l).Sorted (· ≤ ·) := by
  induction l with
  | nil => simp [insortInsert]
  | cons b t ih =>
    rw [List.sorted_cons] at h
    simp only [insortInsert]
    by_cases hb : b > key
    · rw [if_pos hb, List.sorted_cons, List.sorted_cons]
      refine ⟨fun x hx => ?_, h⟩
      rcases List.mem_cons.mp hx with rfl | hx
      · exact le_of_lt hb
      · exact le_of_lt (lt_of_lt_of_le hb (h.1 x hx))
    · rw [if_neg hb, List.sorted_cons]
      refine ⟨fun x hx => ?_, ih h.2⟩
      rcases List.mem_cons.mp ((insortInsert_perm key t).mem_iff.mp hx) with rfl | hx
      · exact le_of_not_lt hb
      · exact h.1 x hx

theorem insFold_perm (rest acc : List Int) :
    List.Perm (rest.foldl (fun acc key => insortInsert key acc) acc) (acc ++ rest) := by
  induction rest generalizing acc with
  | nil => simp
  | cons k t ih =>
    simp only [List.foldl_cons]
    refine (ih (insortInsert k acc)).trans ?_
    have h1 : List.Perm (insortInsert k acc ++ t) ((k :: acc) ++ t) :=
      (insortInsert_perm k acc).append_right t
    refine h1.trans ?_
    simpa using List.perm_middle.symm

theorem insFold_sorted (rest acc : List Int) (h : acc.Sorted (· ≤ ·)) :
    (rest.foldl (fun acc key => insortInsert key acc) acc).Sorted (· ≤ ·) := by
  induction rest generalizing acc with
  | nil => simpa using h
  | cons k t ih =>
    simp only [List.foldl_cons]
    exact ih _ (insortInsert_sorted k acc h)

theorem insertion_sort_perm (l : List Int) : List.Perm (insertion_sort l) l := by
  match l with
  | [] => simp [insertion_sort]
  | a :: rest =>
    simpa [insertion_sort] using insFold_perm rest [a]

theorem insertion_sort_sorted (l : List Int) : (insertion_sort l).Sorted (· ≤ ·) := by
  match l with
  | [] => simp [insertion_sort]
  | a :: rest =>
    exact insFold_sorted rest [a] (List.sorted_singleton a)

/-! ## Lemmas: bubble sort -/

theorem bubblePass_perm (m : Nat) (l : List Int) :
    List.Perm (bubblePass m l).1 l := by
  induction m generalizing l with
  | zero => simp [bubblePass]
  | succ m ih =>
    match l with
    | [] => simp [bubblePass]
    | [a] => simp [bubblePass]
    | a :: b :: t =>
      simp only [bubblePass]
      by_cases h : a > b
      · simp only [if_pos h]
        exact ((ih (a :: t)).cons b).trans (List.Perm.swap a b t)
      · simp only [if_neg h]
        exact (ih (b :: t)).cons a

theorem bubblePass_false (m : Nat) (l : List Int)
    (h : (bubblePass m l).2 = false) : (bubblePass m l).1 = l := by
  induction m generalizing l with
  | zero => simp [bubblePass]
  | succ m ih =>
    match l with
    | [] => simp [bubblePass]
    | [a] => simp [bubblePass]
    | a :: b :: t =>
      simp only [bubblePass] at h ⊢
      by_cases hab : a > b
      · rw [if_pos hab] at h
        simp at h
      · rw [if_neg hab] at h ⊢
        simp only at h
        rw [ih (b :: t) h]

theorem bubblePass_false_sorted (m : Nat) (l : List Int)
    (h : (bubblePass m l).2 = false) : (l.take (m + 1)).Sorted (· ≤ ·) := by
  induction m generalizing l with
  | zero =>
    match l with
    | [] => simp
    | a :: t => simpa using List.sorted_singleton a
  | succ m ih =>
    match l with
    | [] => simp
    | [a] => simpa using List.sorted_singleton a
    | a :: b :: t =>
      simp only [bubblePass] at h
      by_cases hab : a > b
      · rw [if_pos hab] at h
        simp at h
      · rw [if_neg hab] at h
        simp only at h
        have hs := ih (b :: t) h
        have hs' := hs
        rw [List.take_succ_cons, List.sorted_cons] at hs'
        rw [List.take_succ_cons, List.sorted_cons]
        refine ⟨fun x hx => ?_, hs⟩
        rw [List.take_succ_cons] at hx
        rcases List.mem_cons.mp hx with rfl | hx
        · exact le_of_not_lt hab
        · exact le_trans (le_of_not_lt hab) (hs'.1 x hx)

theorem bubblePass_split (m : Nat) (a : Int) (l : List Int) :
    ∃ l₂ mx, (bubblePass m (a :: l)).1 = l₂ ++ mx :: l.drop m ∧
      List.Perm (l₂ ++ [mx]) (a :: l.take m) ∧ ∀ x ∈ l₂, x ≤ mx := by
  induction m generalizing a l with
  | zero =>
    exact ⟨[], a, by simp [bubblePass], by simp, by simp⟩
  | succ m ih =>
    match l with
    | [] =>
      refine ⟨[], a, ?_, by simp, by simp⟩
      simp [bubblePass]
    | b :: t =>
      by_cases hab : a > b
      · obtain ⟨l₂, mx, heq, hperm, hbnd⟩ := ih a t
        refine ⟨b :: l₂, mx, ?_, ?_, ?_⟩
        · simp only [bubblePass, if_pos hab, heq]
          simp
        · simp only [List.take_cons, List.cons_append]
          exact (hperm.cons b).trans (List.Perm.swap a b _)
        · have hamx : a ≤ mx := by
            have ha : a ∈ l₂ ++ [mx] := hperm.mem_iff.mpr (List.mem_cons_self a _)
            rcases List.mem_append.mp ha with h1 | h1
            · exact hbnd a h1
            · simp at h1; omega
          intro x hx
          rcases List.mem_cons.mp hx with rfl | hx
          · exact le_trans (le_of_lt hab) hamx
          · exact hbnd x hx
      · obtain ⟨l₂, mx, heq, hperm, hbnd⟩ := ih b t
        refine ⟨a :: l₂, mx, ?_, ?_, ?_⟩
        · simp only [bubblePass, if_neg hab, heq]
          simp
        · simp only [List.take_cons, List.cons_append]
          exact hperm.cons a
        · have hbmx : b ≤ mx := by
            have hb : b ∈ l₂ ++ [mx] := hperm.mem_iff.mpr (List.mem_cons_self b _)
            rcases List.mem_append.mp hb with h1 | h1
            · exact hbnd b h1
            · simp at h1; omega
          intro x hx
          rcases List.mem_cons.mp hx with rfl | hx
          · exact le_trans (le_of_not_lt hab) hbmx
          · exact hbnd x hx

theorem bubbleLoop_perm (m : Nat) (l : List Int) :
    List.Perm (bubbleLoop m l) l := by
  induction m generalizing l with
  | zero => simp [bubbleLoop]
  | succ m ih =>
    simp only [bubbleLoop]
    by_cases h : (bubblePass (m + 1) l).2
    · rw [if_pos h]
      exact (ih _).trans (bubblePass_perm (m + 1) l)
    · rw [if_neg h]
      exact bubblePass_perm (m + 1) l

theorem bubbleLoop_sorted (m : Nat) (l : List Int)
    (hlen : m < l.length)
    (hsuf : (l.drop (m + 1)).Sorted (· ≤ ·))
    (hdom : ∀ x ∈ l.take (m + 1), ∀ y ∈ l.drop (m + 1), x ≤ y) :
    (bubbleLoop m l).Sorted (· ≤ ·) := by
  induction m generalizing l with
  | zero =>
    simp only [bubbleLoop]
    have h1 : (l.take 1).Sorted (· ≤ ·) := by
      match l with
      | [] => simp
      | a :: t => simpa using List.sorted_singleton a
    have hsuf1 : (l.drop 1).Sorted (· ≤ ·) := hsuf
    have hdom1 : ∀ x ∈ l.take 1, ∀ y ∈ l.drop 1, x ≤ y := hdom
    have h2 := List.pairwise_append.mpr ⟨h1, hsuf1, hdom1⟩
    rw [List.take_append_drop] at h2
    exact h2
  | succ m ih =>
    simp only [bubbleLoop]
    by_cases h : (bubblePass (m + 1) l).2
    · rw [if_pos h]
      match l with
      | [] => simp at hlen
      | a :: t =>
        obtain ⟨l₂, mx, heq, hperm, hbnd⟩ := bubblePass_split (m + 1) a t
        have hsuf' : (t.drop (m + 1)).Sorted (· ≤ ·) := by simpa using hsuf
        have hdom' : ∀ x ∈ a :: t.take (m + 1), ∀ y ∈ t.drop (m + 1), x ≤ y := by
          intro x hx y hy
          exact hdom x (by simpa using hx) y (by simpa using hy)
        have hmt : m + 1 ≤ t.length := by simp at hlen; omega
        have hlen₂ : l₂.length = m + 1 := by
          have h5 := hperm.length_eq
          simp [List.length_take, Nat.min_eq_left hmt] at h5
          omega
        have hmxmem : mx ∈ a :: t.take (m + 1) := hperm.mem_iff.mp (by simp)
        have hsubmem : ∀ x ∈ l₂, x ∈ a :: t.take (m + 1) := by
          intro x hx
          exact hperm.mem_iff.mp (List.mem_append.mpr (Or.inl hx))
        have hdrop : (bubblePass (m + 1) (a :: t)).1.drop (m + 1) = mx :: t.drop (m + 1) := by
          rw [heq, ← hlen₂, List.drop_left]
        have htake : (bubblePass (m + 1) (a :: t)).1.take (m + 1) = l₂ := by
          rw [heq, ← hlen₂, List.take_left]
        apply ih
        · have h6 : (bubblePass (m + 1) (a :: t)).1.length = t.length + 1 :=
            (bubblePass_perm (m + 1) (a :: t)).length_eq.trans (by simp)
          omega
        · rw [hdrop, List.sorted_cons]
          exact ⟨fun y hy => hdom' mx hmxmem y hy, hsuf'⟩
        · intro x hx y hy
          rw [htake] at hx
          rw [hdrop] at hy
          rcases List.mem_cons.mp hy with rfl | hy
          · exact hbnd x hx
          · exact hdom' x (hsubmem x hx) y hy
    · rw [if_neg h]
      have hfalse : (bubblePass (m + 1) l).2 = false := by simpa using h
      rw [bubblePass_false (m + 1) l hfalse]
      have h2 := List.pairwise_append.mpr
        ⟨bubblePass_false_sorted (m + 1) l hfalse, hsuf, hdom⟩
      rw [List.take_append_drop] at h2
      exact h2

theorem bubble_sort_perm (l : List Int) : List.Perm (bubble_sort l) l :=
  bubbleLoop_perm (l.length - 1) l

theorem bubble_sort_sorted (l : List Int) : (bubble_sort l).Sorted (· ≤ ·) := by
  match l with
  | [] => simp [bubble_sort, bubbleLoop]
  | a :: t =>
    apply bubbleLoop_sorted
    · simp
    · have : (a :: t).length - 1 + 1 = (a :: t).length := by simp
      rw [this, List.drop_length]
      exact List.sorted_nil
    · intro x _ y hy
      have : (a :: t).length - 1 + 1 = (a :: t).length := by simp
      rw [this, List.drop_length] at hy
      simp at hy

/-! ## Lemmas: selection sort -/

theorem findMin_min (a : Int) (l : List Int) :
    (findMin a l).1 ≤ a ∧ ∀ x ∈ l, (findMin a l).1 ≤ x := by
  induction l generalizing a with
  | nil => simp [findMin]
  | cons b t ih =>
    simp only [findMin]
    by_cases h : b < a
    · rw [if_pos h]
      rcases hfm : findMin b t with ⟨m, o⟩
      have hib := ih b
      rw [hfm] at hib
      cases o with
      | none =>
        refine ⟨le_trans hib.1 (le_of_lt h), fun x hx => ?_⟩
        rcases List.mem_cons.mp hx with rfl | hx
        · exact hib.1
        · exact hib.2 x hx
      | some i =>
        refine ⟨le_trans hib.1 (le_of_lt h), fun x hx => ?_⟩
        rcases List.mem_cons.mp hx with rfl | hx
        · exact hib.1
        · exact hib.2 x hx
    · rw [if_neg h]
      rcases hfm : findMin a t with ⟨m, o⟩
      have hia := ih a
      rw [hfm] at hia
      cases o with
      | none =>
        refine ⟨hia.1, fun x hx => ?_⟩
        rcases List.mem_cons.mp hx with rfl | hx
        · exact le_trans hia.1 (le_of_not_lt h)
        · exact hia.2 x hx
      | some i =>
        refine ⟨hia.1, fun x hx => ?_⟩
        rcases List.mem_cons.mp hx with rfl | hx
        · exact le_trans hia.1 (le_of_not_lt h)
        · exact hia.2 x hx

theorem findMin_none (a : Int) (l : List Int)
    (h : (findMin a l).2 = none) : (findMin a l).1 = a := by
  induction l generalizing a with
  | nil => simp [findMin]
  | cons b t ih =>
    simp only [findMin] at h ⊢
    by_cases hb : b < a
    · rw [if_pos hb] at h ⊢
      rcases hfm : findMin b t with ⟨m, o⟩
      rw [hfm] at h
      cases o <;> simp at h
    · rw [if_neg hb] at h ⊢
      rcases hfm : findMin a t with ⟨m, o⟩
      rw [hfm] at h
      cases o with
      | none =>
        have h1 := ih a
        rw [hfm] at h1
        exact h1 rfl
      | some i => simp at h

theorem findMin_some (a : Int) (l : List Int) (i : Nat)
    (h : (findMin a l).2 = some i) : l[i]? = some (findMin a l).1 := by
  induction l generalizing a i with
  | nil => simp [findMin] at h
  | cons b t ih =>
    simp only [findMin] at h ⊢
    by_cases hb : b < a
    · rw [if_pos hb] at h ⊢
      rcases hfm : findMin b t with ⟨m, o⟩
      rw [hfm] at h
      cases o with
      | none =>
        simp only at h ⊢
        have hmb : m = b := by
          have h1 := findMin_none b t (by rw [hfm])
          rw [hfm] at h1
          exact h1
        cases h
        simp [hmb]
      | some j =>
        simp only at h ⊢
        cases h
        have h2 := ih b j (by rw [hfm])
        rw [hfm] at h2
        simpa using h2
    · rw [if_neg hb] at h ⊢
      rcases hfm : findMin a t with ⟨m, o⟩
      rw [hfm] at h
      cases o with
      | none => simp at h
      | some j =>
        simp only at h ⊢
        cases h
        have h2 := ih a j (by rw [hfm])
        rw [hfm] at h2
        simpa using h2

theorem cons_set_perm (l : List Int) (i : Nat) (a m : Int)
    (h : l[i]? = some m) : List.Perm (m :: l.set i a) (a :: l) := by
  induction l generalizing i with
  | nil => simp at h
  | cons b t ih =>
    cases i with
    | zero =>
      simp only [List.getElem?_cons_zero, Option.some.injEq] at h
      subst h
      simp only [List.set_cons_zero]
      exact List.Perm.swap a b t
    | succ j =>
      simp only [List.getElem?_cons_succ] at h
      simp only [List.set_cons_succ]
      exact (List.Perm.swap b m (t.set j a)).trans
        (((ih j h).cons b).trans (List.Perm.swap a b t))

theorem selLoop_perm (f : Nat) (l : List Int) : List.Perm (selLoop f l) l := by
  induction f generalizing l with
  | zero => simp [selLoop]
  | succ f ih =>
    match l with
    | [] => simp [selLoop]
    | a :: t =>
      simp only [selLoop]
      rcases hfm : findMin a t with ⟨m, o⟩
      cases o with
      | none => exact (ih t).cons a
      | some i =>
        have h3 : t[i]? = some m := by
          have h4 := findMin_some a t i (by rw [hfm])
          rw [hfm] at h4
          exact h4
        exact ((ih _).cons m).trans (cons_set_perm t i a m h3)

theorem selLoop_sorted (f : Nat) (l : List Int) (h : l.length ≤ f) :
    (selLoop f l).Sorted (· ≤ ·) := by
  induction f generalizing l with
  | zero =>
    have hnil : l = [] := List.eq_nil_of_length_eq_zero (Nat.le_zero.mp h)
    subst hnil
    simp [selLoop]
  | succ f ih =>
    match l with
    | [] => simp [selLoop]
    | a :: t =>
      simp only [selLoop]
      rcases hfm : findMin a t with ⟨m, o⟩
      have hmin := findMin_min a t
      rw [hfm] at hmin
      have hlt : t.length ≤ f := by simpa using h
      cases o with
      | none =>
        have ha : m = a := by
          have h1 := findMin_none a t (by rw [hfm])
          rw [hfm] at h1
          exact h1
        rw [List.sorted_cons]
        refine ⟨fun x hx => ?_, ih t hlt⟩
        have hx1 : x ∈ t := (selLoop_perm f t).mem_iff.mp hx
        have := hmin.2 x hx1
        omega
      | some i =>
        have h3 : t[i]? = some m := by
          have h4 := findMin_some a t i (by rw [hfm])
          rw [hfm] at h4
          exact h4
        rw [List.sorted_cons]
        constructor
        · intro x hx
          have hx1 : x ∈ t.set i a := (selLoop_perm f _).mem_iff.mp hx
          have hx2 : x ∈ a :: t :=
            (cons_set_perm t i a m h3).mem_iff.mp (List.mem_cons.mpr (Or.inr hx1))
          rcases List.mem_cons.mp hx2 with rfl | hx3
          · exact hmin.1
          · exact hmin.2 x hx3
        · exact ih _ (by simpa using hlt)

theorem selection_sort_perm (l : List Int) : List.Perm (selection_sort l) l :=
  selLoop_perm l.length l

theorem selection_sort_sorted (l : List Int) : (selection_sort l).Sorted (· ≤ ·) :=
  selLoop_sorted l.length l (le_refl _)

/-- C1: for every list of integers `s`, the results of `bubble_sort`,
`selection_sort` and `insertion_sort` are pairwise equal, each result is
non-decreasing, and each result is a permutation of `s` (the same multiset of
elements as the input). -/
theorem sorts_pairwise_equal_sorted_perm (s : List Int) :
    bubble_sort s = selection_sort s ∧ selection_sort s = insertion_sort s ∧
      bubble_sort s = insertion_sort s ∧
      (bubble_sort s).Sorted (· ≤ ·) ∧ (selection_sort s).Sorted (· ≤ ·) ∧
      (insertion_sort s).Sorted (· ≤ ·) ∧
      List.Perm (bubble_sort s) s ∧ List.Perm (selection_sort s) s ∧
      List.Perm (insertion_sort s) s := by
  have hb := bubble_sort_sorted s
  have hs := selection_sort_sorted s
  have hi := insertion_sort_sorted s
  have pb := bubble_sort_perm s
  have ps := selection_sort_perm s
  have pins := insertion_sort_perm s
  have e1 : bubble_sort s = selection_sort s :=
    List.eq_of_perm_of_sorted (pb.trans ps.symm) hb hs
  have e2 : selection_sort s = insertion_sort s :=
    List.eq_of_perm_of_sorted (ps.trans pins.symm) hs hi
  exact ⟨e1, e2, e1.trans e2, hb, hs, hi, pb, ps, pins⟩

/-! ## Lemmas: the sanitize matcher -/

theorem tryPats_none_iff (pats : List (List RElem)) (prev : Option Char)
    (s : List Char) :
    tryPats pats prev s = none ↔ ∀ p ∈ pats, matchFrom p prev s = none := by
  induction pats with
  | nil => simp [tryPats]
  | cons p ps ih =>
    simp only [tryPats]
    rcases hm : matchFrom p prev s with _ | g
    · simpa [hm] using ih
    · simp [hm]

theorem tryPats_isSome_iff (pats : List (List RElem)) (prev : Option Char)
    (s : List Char) :
    (tryPats pats prev s).isSome ↔ ∃ p ∈ pats, (matchFrom p prev s).isSome := by
  rcases ht : tryPats pats prev s with _ | g
  · rw [tryPats_none_iff] at ht
    simp only [Option.isSome_none, Bool.false_eq_true, false_iff]
    push_neg
    intro p hp
    simp [ht p hp]
  · simp only [Option.isSome_some, true_iff]
    by_contra hc
    push_neg at hc
    have : tryPats pats prev s = none := by
      rw [tryPats_none_iff]
      intro p hp
      have := hc p hp
      rcases hm : matchFrom p prev s with _ | g2
      · rfl
      · rw [hm] at this
        simp at this
    rw [this] at ht
    cases ht

theorem searchGroup_isSome_iff (pats : List (List RElem)) :
    ∀ (prev : Option Char) (s : List Char),
      (searchGroup pats prev s).isSome ↔
        ∃ p ∈ pats, (searchGroup [p] prev s).isSome := by
  intro prev s
  induction s generalizing prev with
  | nil =>
    simp only [searchGroup]
    rw [tryPats_isSome_iff]
    constructor
    · rintro ⟨p, hp, hm⟩
      refine ⟨p, hp, ?_⟩
      rw [tryPats_isSome_iff]
      exact ⟨p, by simp, hm⟩
    · rintro ⟨p, hp, hm⟩
      rw [tryPats_isSome_iff] at hm
      obtain ⟨q, hq, hm2⟩ := hm
      simp only [List.mem_singleton] at hq
      subst hq
      exact ⟨q, hp, hm2⟩
  | cons d t ih =>
    simp only [searchGroup]
    rcases htp : tryPats pats prev (d :: t) with _ | g
    · rw [tryPats_none_iff] at htp
      rw [ih (some d)]
      constructor
      · rintro ⟨p, hp, hm⟩
        refine ⟨p, hp, ?_⟩
        rcases htq : tryPats [p] prev (d :: t) with _ | g2
        · exact hm
        · simp
      · rintro ⟨p, hp, hm⟩
        refine ⟨p, hp, ?_⟩
        rcases htq : tryPats [p] prev (d :: t) with _ | g2
        · rwa [htq] at hm
        · exfalso
          have h2 : matchFrom p prev (d :: t) ≠ none := by
            intro hn
            have : tryPats [p] prev (d :: t) = none := by
              rw [tryPats_none_iff]
              intro q hq
              simp only [List.mem_singleton] at hq
              subst hq
              exact hn
            rw [this] at htq
            cases htq
          exact h2 (htp p hp)
    · simp only [Option.isSome_some, true_iff]
      have h1 : (tryPats pats prev (d :: t)).isSome := by simp [htp]
      rw [tryPats_isSome_iff] at h1
      obtain ⟨p, hp, hm⟩ := h1
      refine ⟨p, hp, ?_⟩
      rcases htq : tryPats [p] prev (d :: t) with _ | g2
      · rw [tryPats_none_iff] at htq
        have := htq p (by simp)
        rw [this] at hm
        cases hm
      · simp

theorem searchGroup_emptyPat (prev : Option Char) (s : List Char) :
    (searchGroup [([] : List RElem)] prev s).isSome := by
  have h1 : tryPats [([] : List RElem)] prev s = some [] := by
    simp [tryPats, matchFrom]
  cases s with
  | nil => simp [searchGroup, h1]
  | cons d t => simp [searchGroup, h1]

theorem matchFrom_lits_iff (kw : List Char) :
    ∀ (prev : Option Char) (s : List Char),
      (matchFrom (kw.map RElem.lit) prev s).isSome ↔
        kw.map Char.toLower <+: s.map Char.toLower := by
  induction kw with
  | nil => intro prev s; simp [matchFrom]
  | cons c cs ih =>
    intro prev s
    cases s with
    | nil => simp [matchFrom]
    | cons d t =>
      simp only [List.map_cons, matchFrom]
      by_cases h : d.toLower = c.toLower
      · rw [if_pos h]
        rw [List.cons_prefix_cons]
        simp only [Option.isSome_map']
        rw [ih (some d) t]
        simp [h]
      · rw [if_neg h]
        rw [List.cons_prefix_cons]
        simp only [Option.isSome_none, Bool.false_eq_true, false_iff]
        intro hc
        exact h hc.1.symm

theorem searchGroup_lits_iff (kw : List Char) :
    ∀ (prev : Option Char) (s : List Char),
      (searchGroup [kw.map RElem.lit] prev s).isSome ↔
        kw.map Char.toLower <:+: s.map Char.toLower := by
  intro prev s
  induction s generalizing prev with
  | nil =>
    simp only [searchGroup]
    rw [tryPats_isSome_iff]
    simp only [List.mem_singleton, exists_eq_left]
    rw [matchFrom_lits_iff]
    simp only [List.map_nil]
    constructor
    · intro h
      exact h.isInfix
    · intro h
      exact List.prefix_nil.mpr (List.eq_nil_of_infix_nil h)
  | cons d t ih =>
    simp only [searchGroup]
    rcases htp : tryPats [kw.map RElem.lit] prev (d :: t) with _ | g
    · rw [tryPats_none_iff] at htp
      have hm := htp (kw.map RElem.lit) (by simp)
      rw [ih (some d)]
      have hnp : ¬kw.map Char.toLower <+: (d :: t).map Char.toLower := by
        rw [← matchFrom_lits_iff kw prev (d :: t)]
        simp [hm]
      simp only [List.map_cons] at hnp ⊢
      rw [List.infix_cons_iff]
      simp [hnp]
    · simp only [Option.isSome_some, true_iff]
      have h1 : (tryPats [kw.map RElem.lit] prev (d :: t)).isSome := by simp [htp]
      rw [tryPats_isSome_iff] at h1
      simp only [List.mem_singleton, exists_eq_left] at h1
      rw [matchFrom_lits_iff] at h1
      exact h1.isInfix

theorem logMessage_ne_empty (text : String) (g : List Char) :
    logMessage text g ≠ "" := by
  intro h
  have h2 := congrArg String.data h
  simp [logMessage] at h2

/-- C2: for every text and every valid keyword list, `sanitize_text` returns
the well-typed core result; the core returns the pair of the empty string and
a non-empty diagnostic naming the offending text when some denylist pattern or
some caller-supplied keyword matches; it returns the original text unmodified
with an empty diagnostic when no pattern and no keyword matches; and a
caller-supplied keyword matches exactly when it occurs, case-insensitively, as
a literal substring of the text. -/
theorem sanitize_text_match_behaviour (text : String) (kws : List String) :
    sanitize_text text (PyArg.list (kws.map PyVal.str)) =
        Except.ok (sanitize_core text kws) ∧
      ((∃ p ∈ combinedPats kws, (searchGroup [p] none text.data).isSome) →
        (sanitize_core text kws).1 = "" ∧ (sanitize_core text kws).2 ≠ "" ∧
          ∃ pre suf : String, (sanitize_core text kws).2 = pre ++ text ++ suf) ∧
      ((∀ p ∈ combinedPats kws, ¬ (searchGroup [p] none text.data).isSome) →
        sanitize_core text kws = (text, "")) ∧
      (∀ kw ∈ kws, ((searchGroup [lits kw] none text.data).isSome ↔
        kw.data.map Char.toLower <:+: text.data.map Char.toLower)) := by
  refine ⟨?_, ?_, ?_, ?_⟩
  · have hid : ∀ ks : List String, List.map (PyVal.getStr ∘ PyVal.str) ks = ks := by
      intro ks
      induction ks with
      | nil => simp
      | cons k t ih => simp [PyVal.getStr, Function.comp, ih]
    simp [sanitize_text, List.all_map, List.map_map, Function.comp,
      PyVal.isStr, PyVal.getStr, hid]
  · intro h
    have hsome : (searchGroup (combinedPats kws) none text.data).isSome := by
      rw [searchGroup_isSome_iff]
      exact h
    obtain ⟨g, hg⟩ := Option.isSome_iff_exists.mp hsome
    have hcore : sanitize_core text kws = ("", logMessage text g) := by
      simp only [sanitize_core, hg]
    rw [hcore]
    refine ⟨rfl, logMessage_ne_empty text g, ?_⟩
    refine ⟨"Blocked potentially dangerous input: '",
      "' matches keyword '" ++ String.mk g ++ "'", ?_⟩
    simp [logMessage, String.append_assoc]
  · intro h
    rcases hsg : searchGroup (combinedPats kws) none text.data with _ | g
    · simp [sanitize_core, hsg]
    · exfalso
      have hsome : (searchGroup (combinedPats kws) none text.data).isSome := by
        simp [hsg]
      rw [searchGroup_isSome_iff] at hsome
      obtain ⟨p, hp, hm⟩ := hsome
      exact h p hp hm
  · intro kw _
    exact searchGroup_lits_iff kw.data none text.data

/-- Witness for C2 at concrete inputs: the text containing the denylisted
word import is blocked with a diagnostic containing the text, and a harmless
text passes through unmodified. -/
theorem sanitize_text_match_behaviour_witness :
    ((OPT.sanitize_core "import os" []).1 = "" ∧
        (OPT.sanitize_core "import os" []).2 ≠ "" ∧
        ∃ pre suf : String,
          (OPT.sanitize_core "import os" []).2 = pre ++ "import os" ++ suf) ∧
      OPT.sanitize_core "hello world" [] = ("hello world", "") := by
  constructor
  · refine (OPT.sanitize_text_match_behaviour "import os" []).2.1
      ⟨OPT.wordPat "import", by decide, ?_⟩
    simp [OPT.searchGroup, OPT.tryPats, OPT.matchFrom, OPT.wordPat, OPT.lits,
      OPT.isWordOpt, OPT.headIsWord, OPT.isWordChar, OPT.isSpaceChar]
  · refine (OPT.sanitize_text_match_behaviour "hello world" []).2.2.1 ?_
    simp [OPT.combinedPats, OPT.BLACKLISTED_KEYWORDS, OPT.searchGroup,
      OPT.tryPats, OPT.matchFrom, OPT.wordPat, OPT.lits, OPT.isWordOpt,
      OPT.headIsWord, OPT.isWordChar, OPT.isSpaceChar]

/-- C7: `sanitize_text` raises a type error exactly when `more_keywords` is
not a list of strings, and it raises it before inspecting the text: on that
error the result does not depend on the text at all, so no sanitized result is
produced. -/
theorem sanitize_text_type_check (mk : PyArg) :
    (∀ text, (∃ e, sanitize_text text mk = Except.error e) ↔
        ¬ ∃ vs, mk = PyArg.list vs ∧ vs.all PyVal.isStr = true) ∧
      (∀ t1 t2 : String, (∃ e, sanitize_text t1 mk = Except.error e) →
        sanitize_text t1 mk = sanitize_text t2 mk) := by
  cases mk with
  | nonList =>
    constructor
    · intro text
      simp [sanitize_text]
    · intro t1 t2 _
      simp [sanitize_text]
  | list vs =>
    by_cases hall : vs.all PyVal.isStr = true
    · constructor
      · intro text
        constructor
        · rintro ⟨e, he⟩
          simp only [sanitize_text, if_pos hall] at he
          cases he
        · intro hne
          exact absurd ⟨vs, rfl, hall⟩ hne
      · intro t1 t2 he
        obtain ⟨e, he⟩ := he
        simp only [sanitize_text, if_pos hall] at he
        cases he
    · constructor
      · intro text
        constructor
        · rintro - ⟨ws, hws, hall2⟩
          cases hws
          exact hall hall2
        · intro _
          refine ⟨"more_keywords must be a list of strings", ?_⟩
          simp only [sanitize_text, if_neg hall]
      · intro t1 t2 _
        simp only [sanitize_text, if_neg hall]

/-- Witness for C7 at a concrete input: a non-list argument produces the type
error, and the erroneous result is independent of the text. -/
theorem sanitize_text_type_check_witness :
    (∃ e, OPT.sanitize_text "abc" OPT.PyArg.nonList = Except.error e) ∧
      OPT.sanitize_text "abc" OPT.PyArg.nonList =
        OPT.sanitize_text "xyz" OPT.PyArg.nonList := by
  have h := OPT.sanitize_text_type_check OPT.PyArg.nonList
  have h1 := (h.1 "abc").mpr (by rintro ⟨vs, hvs, -⟩; cases hvs)
  exact ⟨h1, h.2 "abc" "xyz" h1⟩

/-- C10: if `more_keywords` contains the empty string, the escaped empty
keyword is an empty alternative of the combined regex and matches every text,
so `sanitize_text` blocks every input: the result is the empty string with a
non-empty diagnostic, and the return-original branch is unreachable. -/
theorem sanitize_empty_keyword_blocks_all (text : String) (kws : List String)
    (h : "" ∈ kws) :
    (sanitize_core text kws).1 = "" ∧ (sanitize_core text kws).2 ≠ "" := by
  have hmem : ([] : List RElem) ∈ combinedPats kws := by
    simp only [combinedPats, List.mem_append, List.mem_map]
    exact Or.inr ⟨"", h, rfl⟩
  have hsome : (searchGroup (combinedPats kws) none text.data).isSome := by
    rw [searchGroup_isSome_iff]
    exact ⟨[], hmem, searchGroup_emptyPat none text.data⟩
  obtain ⟨g, hg⟩ := Option.isSome_iff_exists.mp hsome
  have hcore : sanitize_core text kws = ("", logMessage text g) := by
    simp only [sanitize_core, hg]
  rw [hcore]
  exact ⟨rfl, logMessage_ne_empty text g⟩

/-- Witness for C10 at a concrete input: with the empty keyword present, even
a text matching no denylist pattern and no other keyword is blocked. -/
theorem sanitize_empty_keyword_blocks_all_witness :
    (OPT.sanitize_core "all clear" [""]).1 = "" ∧
      (OPT.sanitize_core "all clear" [""]).2 ≠ "" :=
  OPT.sanitize_empty_keyword_blocks_all "all clear" [""] (by simp)

/-- C3: `normalize_number` returns an integer input unchanged; a string input
is trimmed and lowered, parsed directly when purely digits, otherwise
converted from word-number text (digit runs first rewritten as words); and it
fails with an invalid-input error carrying the cause exactly when the
word-to-number conversion finds no numeric interpretation — in particular
`normalize_number 5 = 5`, `normalize_number "42" = 42`,
`normalize_number "forty-two" = 42` and `normalize_number "not a number"`
raises. -/
theorem normalize_number_behaviour :
    (∀ n : Int, normalize_number (IntOrStr.int n) = Except.ok n) ∧
      normalize_number (IntOrStr.str "42") = Except.ok 42 ∧
      normalize_number (IntOrStr.str "forty-two") = Except.ok 42 ∧
      (∃ e, normalize_number (IntOrStr.str "not a number") = Except.error e ∧
        e.cause ≠ "") ∧
      (∀ s : String,
        (∃ e, normalize_number (IntOrStr.str s) = Except.error e) ↔
          (isDigits (strLower (strTrim s)).data = false ∧
            ∃ msg, word_to_num
              (String.mk (rewriteDigitRuns none (strLower (strTrim s)).data)) =
                Except.error msg)) := by
  refine ⟨fun n => rfl, by rfl, ?_, ?_, ?_⟩
  · simp [normalize_number, strTrim, strLower, isDigits, rewriteDigitRuns,
      word_to_num, splitWords, splitWsAux, numberWordValue, wordsToNat,
      w2nStep, isWordOpt, isWordChar]
  · refine ⟨⟨"Invalid number input: not a number",
      "No valid number words found in the input"⟩, ?_, by decide⟩
    simp [normalize_number, strTrim, strLower, isDigits, rewriteDigitRuns,
      word_to_num, splitWords, splitWsAux, numberWordValue, wordsToNat,
      w2nStep, isWordOpt, isWordChar]
  · intro s
    simp only [normalize_number]
    by_cases hd : isDigits (strLower (strTrim s)).data = true
    · simp [hd]
    · rcases hw : word_to_num
          (String.mk (rewriteDigitRuns none (strLower (strTrim s)).data))
        with e | n
      · simp [hw, hd]
      · simp [hw, hd]

/-! ## Lemmas: random point in a box -/

theorem rwbb_error_iff (x y h w : ℚ) (centered : Bool)
    (randint : Int → Int → Int) :
    (∃ e, random_within_boundary_box x y h w centered randint = Except.error e)
      ↔ ((boxBounds x y h w centered).1 > (boxBounds x y h w centered).2.1 ∨
        (boxBounds x y h w centered).2.2.1 > (boxBounds x y h w centered).2.2.2) := by
  rcases hb : boxBounds x y h w centered with ⟨xmin, xmax, ymin, ymax⟩
  simp only [random_within_boundary_box, hb]
  by_cases hc : xmin > xmax ∨ ymin > ymax
  · have hcb : (decide (xmin > xmax) || decide (ymin > ymax)) = true := by
      rcases hc with hc | hc <;> simp [hc]
    rw [if_pos hcb]
    simpa using hc
  · have hcb : (decide (xmin > xmax) || decide (ymin > ymax)) = false := by
      push_neg at hc
      simp [hc.1, hc.2, not_lt.mpr hc.1, not_lt.mpr hc.2]
    rw [if_neg (by simp [hcb])]
    simpa using hc

theorem rwbb_ok_bounds (x y h w : ℚ) (centered : Bool)
    (randint : Int → Int → Int)
    (hr : ∀ a b : Int, a ≤ b → a ≤ randint a b ∧ randint a b ≤ b) :
    ∀ px py,
      random_within_boundary_box x y h w centered randint = Except.ok (px, py) →
      (boxBounds x y h w centered).1 ≤ px ∧ px ≤ (boxBounds x y h w centered).2.1 ∧
        (boxBounds x y h w centered).2.2.1 ≤ py ∧
        py ≤ (boxBounds x y h w centered).2.2.2 := by
  rcases hb : boxBounds x y h w centered with ⟨xmin, xmax, ymin, ymax⟩
  simp only [random_within_boundary_box, hb]
  intro px py heq
  by_cases hc : xmin > xmax ∨ ymin > ymax
  · exfalso
    have hcb : (decide (xmin > xmax) || decide (ymin > ymax)) = true := by
      rcases hc with hc | hc <;> simp [hc]
    rw [if_pos hcb] at heq
    cases heq
  · push_neg at hc
    have hcb : (decide (xmin > xmax) || decide (ymin > ymax)) = false := by
      simp [not_lt.mpr hc.1, not_lt.mpr hc.2]
    rw [if_neg (by simp [hcb])] at heq
    have hx := hr xmin xmax hc.1
    have hy := hr ymin ymax hc.2
    simp only [Except.ok.injEq, Prod.mk.injEq] at heq
    obtain ⟨h1, h2⟩ := heq
    subst h1
    subst h2
    exact ⟨hx.1, hx.2, hy.1, hy.2⟩

/-- C4: `random_within_boundary_box` fails exactly when, after truncation of
the coordinates to integers, a derived minimum exceeds the corresponding
maximum; otherwise it returns an integer point inside the rectangle — in
particular the box (0, 0, 10, 10) always yields 0 ≤ px ≤ 10 and
0 ≤ py ≤ 10, and the box (0, 0, -5, 10) fails. -/
theorem random_within_boundary_box_spec (x y h w : ℚ) (centered : Bool)
    (randint : Int → Int → Int)
    (hr : ∀ a b : Int, a ≤ b → a ≤ randint a b ∧ randint a b ≤ b) :
    ((∃ e, random_within_boundary_box x y h w centered randint = Except.error e)
        ↔ ((boxBounds x y h w centered).1 > (boxBounds x y h w centered).2.1 ∨
          (boxBounds x y h w centered).2.2.1 > (boxBounds x y h w centered).2.2.2)) ∧
      (∀ px py,
        random_within_boundary_box x y h w centered randint = Except.ok (px, py) →
        (boxBounds x y h w centered).1 ≤ px ∧
          px ≤ (boxBounds x y h w centered).2.1 ∧
          (boxBounds x y h w centered).2.2.1 ≤ py ∧
          py ≤ (boxBounds x y h w centered).2.2.2) ∧
      (∀ px py,
        random_within_boundary_box 0 0 10 10 false randint = Except.ok (px, py) →
        0 ≤ px ∧ px ≤ 10 ∧ 0 ≤ py ∧ py ≤ 10) ∧
      (∃ e, random_within_boundary_box 0 0 (-5) 10 false randint =
        Except.error e) := by
  have h0010 : boxBounds 0 0 10 10 false = (0, 10, 0, 10) := by
    norm_num [boxBounds, truncQ]
  have hneg : boxBounds 0 0 (-5) 10 false = (0, 10, 0, -5) := by
    norm_num [boxBounds, truncQ]
  refine ⟨rwbb_error_iff x y h w centered randint,
    rwbb_ok_bounds x y h w centered randint hr, ?_, ?_⟩
  · intro px py heq
    have hb := rwbb_ok_bounds 0 0 10 10 false randint hr px py heq
    rw [h0010] at hb
    exact hb
  · rw [rwbb_error_iff, hneg]
    norm_num

/-- Witness for C4 at concrete inputs: with the draw-the-minimum generator,
the box (0, 0, 10, 10) yields a point within bounds and the box
(0, 0, -5, 10) fails. -/
theorem random_within_boundary_box_spec_witness :
    ((0:Int) ≤ 0 ∧ (0:Int) ≤ 10 ∧ (0:Int) ≤ 0 ∧ (0:Int) ≤ 10) ∧
      ∃ e, OPT.random_within_boundary_box 0 0 (-5) 10 false (fun a _ => a) =
        Except.error e := by
  have h := OPT.random_within_boundary_box_spec 0 0 10 10 false (fun a _ => a)
    (fun a b hab => ⟨le_refl a, hab⟩)
  refine ⟨h.2.2.1 0 0 ?_, h.2.2.2⟩
  norm_num [OPT.random_within_boundary_box, OPT.boxBounds, OPT.truncQ]

/-- C5: for every filesystem and path, `enumerate_directory` on a missing
path or a non-directory path returns (never raises) the error-keyed mapping,
whose error entry holds exactly one message, and that message names the
path. -/
theorem enumerate_directory_error_keyed (fs : FS) (path : String) (levels : Nat)
    (h : fs.pathExists path = false ∨ fs.isDirectory path = false) :
    ∃ msg pre, enumerate_directory fs path levels = DirListing.error [msg] ∧
      msg = pre ++ path := by
  by_cases hex : fs.pathExists path = true
  · have hdir : fs.isDirectory path = false := by
      rcases h with h | h
      · rw [hex] at h
        cases h
      · exact h
    refine ⟨"Path is not a directory: " ++ path, "Path is not a directory: ",
      ?_, rfl⟩
    simp [enumerate_directory, hex, hdir]
  · refine ⟨"Directory does not exist: " ++ path, "Directory does not exist: ",
      ?_, rfl⟩
    simp [enumerate_directory, hex]

/-- Witness for C5 at a concrete input: a filesystem with no entries at all
gives the single-message error mapping naming the requested path. -/
theorem enumerate_directory_error_keyed_witness :
    ∃ msg pre,
      OPT.enumerate_directory
          { pathExists := fun _ => false, isDirectory := fun _ => false,
            children := fun _ => [], permissionDenied := fun _ => false }
          "/path/does/not/exist" 1 = OPT.DirListing.error [msg] ∧
        msg = pre ++ "/path/does/not/exist" :=
  OPT.enumerate_directory_error_keyed _ "/path/does/not/exist" 1 (Or.inl rfl)

/-! ## Lemmas: phonetic match -/

theorem mem_firstDedup (x : String) (l : List String) :
    x ∈ firstDedup l ↔ x ∈ l := by
  induction l using firstDedup.induct with
  | case1 => simp [firstDedup]
  | case2 a t ih =>
    simp only [firstDedup, List.mem_cons, ih, List.mem_filter]
    constructor
    · rintro (rfl | ⟨h1, -⟩)
      · exact Or.inl rfl
      · exact Or.inr h1
    · rintro (rfl | h1)
      · exact Or.inl rfl
      · by_cases hxa : x = a
        · exact Or.inl hxa
        · exact Or.inr ⟨h1, by simpa using hxa⟩

theorem find?_filter_ne (p : String → Bool) (a : String) (hpa : p a = false)
    (l : List String) :
    List.find? p (l.filter fun x => x ≠ a) = List.find? p l := by
  induction l with
  | nil => simp
  | cons b t ih =>
    rw [List.filter_cons]
    by_cases hba : b = a
    · subst hba
      rw [if_neg (by simp)]
      rw [ih, List.find?_cons_of_neg t (by simp [hpa])]
    · rw [if_pos (by simp [hba])]
      by_cases hpb : p b = true
      · rw [List.find?_cons_of_pos _ hpb, List.find?_cons_of_pos _ hpb]
      · rw [List.find?_cons_of_neg _ hpb, List.find?_cons_of_neg _ hpb, ih]

theorem find?_firstDedup (p : String → Bool) (l : List String) :
    List.find? p (firstDedup l) = List.find? p l := by
  induction l using firstDedup.induct with
  | case1 => simp [firstDedup]
  | case2 a t ih =>
    simp only [firstDedup]
    by_cases hpa : p a = true
    · rw [List.find?_cons_of_pos _ hpa, List.find?_cons_of_pos _ hpa]
    · rw [List.find?_cons_of_neg _ hpa, List.find?_cons_of_neg _ hpa, ih,
        find?_filter_ne p a (by simpa using hpa) t]

theorem extractOneGo_none (score : String → String → Nat) (cutoff : Nat)
    (q : String) (cs : List String) (h : ∀ c ∈ cs, score q c < cutoff) :
    extractOneGo score cutoff q none cs = none := by
  induction cs with
  | nil => rfl
  | cons c cs ih =>
    have hc : ¬ cutoff ≤ score q c := not_le.mpr (h c (by simp))
    simp only [extractOneGo, decide_eq_true_eq]
    rw [if_neg (by simpa using hc)]
    exact ih fun c2 hc2 => h c2 (List.mem_cons_of_mem _ hc2)

theorem extractOneGo_some_props (score : String → String → Nat) (cutoff : Nat)
    (q : String) :
    ∀ (cs : List String) (best : Option (String × Nat)) (r : String × Nat),
      (∀ b, best = some b → b.2 = score q b.1 ∧ cutoff ≤ b.2) →
      extractOneGo score cutoff q best cs = some r →
      r.2 = score q r.1 ∧ cutoff ≤ r.2 ∧ (∀ c ∈ cs, score q c ≤ r.2) ∧
        (∀ b, best = some b → b.2 ≤ r.2) ∧ (r.1 ∈ cs ∨ best = some r) := by
  intro cs
  induction cs with
  | nil =>
    intro best r hb heq
    simp only [extractOneGo] at heq
    have hr := hb r heq
    refine ⟨hr.1, hr.2, by simp, ?_, Or.inr heq⟩
    intro b hbb
    rw [hbb] at heq
    cases heq
    exact le_refl _
  | cons c cs ih =>
    intro best r hb heq
    simp only [extractOneGo] at heq
    cases best with
    | none =>
      by_cases hks : decide (cutoff ≤ score q c) = true
      · rw [if_pos hks] at heq
        have hinv : ∀ b : String × Nat, some (c, score q c) = some b →
            b.2 = score q b.1 ∧ cutoff ≤ b.2 := by
          rintro b hbb
          cases hbb
          exact ⟨rfl, of_decide_eq_true hks⟩
        obtain ⟨h1, h2, h3, h4, h5⟩ := ih (some (c, score q c)) r hinv heq
        refine ⟨h1, h2, ?_, ?_, ?_⟩
        · intro c2 hc2
          rcases List.mem_cons.mp hc2 with rfl | hc2
          · exact h4 (c2, score q c2) rfl
          · exact h3 c2 hc2
        · intro b hbb
          cases hbb
        · rcases h5 with h5 | h5
          · exact Or.inl (List.mem_cons_of_mem _ h5)
          · cases h5
            exact Or.inl (List.mem_cons_self _ _)
      · rw [if_neg hks] at heq
        obtain ⟨h1, h2, h3, h4, h5⟩ := ih none r
          (by intro b hbb; cases hbb) heq
        refine ⟨h1, h2, ?_, (by intro b hbb; cases hbb), ?_⟩
        · intro c2 hc2
          rcases List.mem_cons.mp hc2 with rfl | hc2
          · have hlt : ¬ cutoff ≤ score q c2 := by simpa using hks
            omega
          · exact h3 c2 hc2
        · rcases h5 with h5 | h5
          · exact Or.inl (List.mem_cons_of_mem _ h5)
          · cases h5
    | some b0 =>
      by_cases hks : decide (b0.2 < score q c) = true
      · rw [if_pos hks] at heq
        have hb0 := hb b0 rfl
        have hlt : b0.2 < score q c := of_decide_eq_true hks
        have hinv : ∀ b : String × Nat, some (c, score q c) = some b →
            b.2 = score q b.1 ∧ cutoff ≤ b.2 := by
          rintro b hbb
          cases hbb
          exact ⟨rfl, le_trans hb0.2 (le_of_lt hlt)⟩
        obtain ⟨h1, h2, h3, h4, h5⟩ := ih (some (c, score q c)) r hinv heq
        refine ⟨h1, h2, ?_, ?_, ?_⟩
        · intro c2 hc2
          rcases List.mem_cons.mp hc2 with rfl | hc2
          · exact h4 (c2, score q c2) rfl
          · exact h3 c2 hc2
        · intro b hbb
          cases hbb
          have h6 := h4 (c, score q c) rfl
          omega
        · rcases h5 with h5 | h5
          · exact Or.inl (List.mem_cons_of_mem _ h5)
          · cases h5
            exact Or.inl (List.mem_cons_self _ _)
      · rw [if_neg hks] at heq
        obtain ⟨h1, h2, h3, h4, h5⟩ := ih (some b0) r hb heq
        have hle : score q c ≤ b0.2 := le_of_not_lt (by simpa using hks)
        refine ⟨h1, h2, ?_, h4, ?_⟩
        · intro c2 hc2
          rcases List.mem_cons.mp hc2 with rfl | hc2
          · exact le_trans hle (h4 b0 rfl)
          · exact h3 c2 hc2
        · rcases h5 with h5 | h5
          · exact Or.inl (List.mem_cons_of_mem _ h5)
          · exact Or.inr h5

/-- C6: `find_best_phonetic_match` returns nothing when no option's phonetic
code scores at least 70 against the target's code; and when the extraction
yields a winning code, it returns the first option, in the iteration order of
the option set, whose phonetic code equals the winning code — that winner
scores at least 70 and at least as much as every option's code. -/
theorem find_best_phonetic_match_spec (phon : String → String)
    (score : String → String → Nat) (target : String) (options : List String) :
    ((∀ o ∈ options, score (phon target) (phon o) < 70) →
        find_best_phonetic_match phon score target options = none) ∧
      (∀ w sw,
        extractOne score 70 (phon target) ((firstDedup options).map phon) =
          some (w, sw) →
        (find_best_phonetic_match phon score target options =
            options.find? (fun o => phon o = w)) ∧
          (∃ o ∈ options, find_best_phonetic_match phon score target options =
            some o ∧ phon o = w) ∧
          sw = score (phon target) w ∧ 70 ≤ sw ∧
          ∀ o ∈ options, score (phon target) (phon o) ≤ sw) := by
  constructor
  · intro h
    have hnone : extractOne score 70 (phon target)
        ((firstDedup options).map phon) = none := by
      rw [extractOne]
      apply extractOneGo_none
      intro c hc
      obtain ⟨o, ho, rfl⟩ := List.mem_map.mp hc
      exact h o ((mem_firstDedup o options).mp ho)
    simp [find_best_phonetic_match, hnone]
  · intro w sw heo
    rw [extractOne] at heo
    obtain ⟨h1, h2, h3, h4, h5⟩ := extractOneGo_some_props score 70 (phon target)
      ((firstDedup options).map phon) none (w, sw)
      (by intro b hbb; cases hbb) heo
    have hw : w ∈ (firstDedup options).map phon := by
      rcases h5 with h5 | h5
      · exact h5
      · cases h5
    obtain ⟨k, hk, hkw⟩ := List.mem_map.mp hw
    have hres : find_best_phonetic_match phon score target options =
        (firstDedup options).find? (fun o => phon o = w) := by
      simp only [find_best_phonetic_match, extractOne, heo]
    have hres2 : find_best_phonetic_match phon score target options =
        options.find? (fun o => phon o = w) :=
      hres.trans (find?_firstDedup _ options)
    have hsome : (options.find? (fun o => phon o = w)).isSome :=
      List.find?_isSome.mpr ⟨k, (mem_firstDedup k options).mp hk, by simp [hkw]⟩
    obtain ⟨o, ho⟩ := Option.isSome_iff_exists.mp hsome
    refine ⟨hres2, ⟨o, List.mem_of_find?_eq_some ho, ?_, ?_⟩, by simpa using h1,
      h2, ?_⟩
    · rw [hres2, ho]
    · simpa using List.find?_some ho
    · intro o2 ho2
      exact h3 (phon o2)
        (List.mem_map.mpr ⟨o2, (mem_firstDedup o2 options).mpr ho2, rfl⟩)

/-- Witness for C6 at concrete inputs: with the identity phonetic coder and
an exact-match scorer, the target apple wins against the option list and maps
back to the matching option. -/
theorem find_best_phonetic_match_spec_witness :
    OPT.find_best_phonetic_match id (fun a b => if a = b then 100 else 0)
        "apple" ["orange", "apple"] =
      List.find? (fun o => id o = "apple") ["orange", "apple"] ∧
      ∃ o ∈ ["orange", "apple"],
        OPT.find_best_phonetic_match id (fun a b => if a = b then 100 else 0)
          "apple" ["orange", "apple"] = some o ∧ id o = "apple" := by
  have h := (OPT.find_best_phonetic_match_spec id
      (fun a b => if a = b then 100 else 0) "apple" ["orange", "apple"]).2
    "apple" 100
    (by simp [OPT.extractOne, OPT.extractOneGo, OPT.firstDedup])
  exact ⟨h.1, h.2.1⟩

/-- C8: the total delay of `timed_delay` lies between the clamped wait time
plus the smaller clamped variant bound and the clamped wait time plus the
larger clamped variant bound, for every draw of the uniform generator, and it
is invariant under exchanging the two variant arguments. -/
theorem timed_delay_spec (wait vx vy : ℚ) (uniform : ℚ → ℚ → ℚ)
    (hu : ∀ a b : ℚ, a ≤ b → a ≤ uniform a b ∧ uniform a b ≤ b) :
    (max 0 wait + min (max 0 vx) (max 0 vy) ≤
        timed_delay_total wait vx vy uniform ∧
      timed_delay_total wait vx vy uniform ≤
        max 0 wait + max (max 0 vx) (max 0 vy)) ∧
      timed_delay_total wait vx vy uniform =
        timed_delay_total wait vy vx uniform := by
  have hd := hu (min (max 0 vx) (max 0 vy)) (max (max 0 vx) (max 0 vy))
    min_le_max
  refine ⟨⟨?_, ?_⟩, ?_⟩
  · simp only [timed_delay_total]
    linarith [hd.1]
  · simp only [timed_delay_total]
    linarith [hd.2]
  · simp only [timed_delay_total]
    rw [min_comm (max 0 vx) (max 0 vy), max_comm (max 0 vx) (max 0 vy)]

/-- Witness for C8 at concrete inputs: with the draw-the-minimum generator
and arguments 1, 3, 2, the bounds and the swap invariance hold. -/
theorem timed_delay_spec_witness :
    (max 0 1 + min (max 0 3) (max 0 2) ≤
        OPT.timed_delay_total 1 3 2 (fun a _ => a) ∧
      OPT.timed_delay_total 1 3 2 (fun a _ => a) ≤
        max 0 1 + max (max 0 3) (max 0 2)) ∧
      OPT.timed_delay_total 1 3 2 (fun a _ => a) =
        OPT.timed_delay_total 1 2 3 (fun a _ => a) :=
  OPT.timed_delay_spec 1 3 2 (fun a _ => a) (fun a _ hab => ⟨le_refl a, hab⟩)

/-- C9: `get_main_idea` fails with the invalid-argument error exactly when
the summarizer name is not one of the four recognized names, and for each of
the four names it proceeds to summarize. -/
theorem get_main_idea_spec (summarize : String → String → Nat → String)
    (passage : String) (sentences : Nat) (summarizer : String) :
    ((∃ e, get_main_idea summarize passage sentences summarizer =
        Except.error e) ↔ summarizer ∉ summarizerNames) ∧
      (summarizer = "lsa" ∨ summarizer = "lex_rank" ∨ summarizer = "luhn" ∨
          summarizer = "text_rank" →
        get_main_idea summarize passage sentences summarizer =
          Except.ok (summarize summarizer passage sentences)) := by
  constructor
  · by_cases hmem : summarizer ∈ summarizerNames
    · simp [get_main_idea, hmem]
    · simp [get_main_idea, hmem]
  · intro h
    have hmem : summarizer ∈ summarizerNames := by
      rcases h with rfl | rfl | rfl | rfl <;> simp [summarizerNames]
    simp [get_main_idea, hmem]

/-- Witness for C9 at concrete inputs: an unknown name yields the error, the
name lsa proceeds to summarize. -/
theorem get_main_idea_spec_witness :
    (∃ e, OPT.get_main_idea (fun _ _ _ => "out") "p" 1 "bogus" =
        Except.error e) ∧
      OPT.get_main_idea (fun _ _ _ => "out") "p" 1 "lsa" =
        Except.ok ((fun _ _ _ => "out") "lsa" "p" 1) :=
  ⟨(OPT.get_main_idea_spec (fun _ _ _ => "out") "p" 1 "bogus").1.mpr
      (by simp [OPT.summarizerNames]),
    (OPT.get_main_idea_spec (fun _ _ _ => "out") "p" 1 "lsa").2 (Or.inl rfl)⟩

end OPT
